import Mathlib

/-!
Shallow embedding of the ZenList mobile client (React Native) screens:
`src/app/(tabs)/shopping-list.tsx`, `src/app/(tabs)/receipts.tsx` and
`src/app/(tabs)/supermarket.tsx`.

The screens keep a local collection in component state, mutate it
optimistically, send one HTTP request per mutation and roll the local
state back when the request fails.  We model the component state as an
explicit list that every operation takes and returns, the outcome of a
`fetch` as a boolean (or a per-item boolean oracle for the bulk delete),
and the observable effects (HTTP requests issued, snackbar messages
shown) as explicit traces in the result.
-/

namespace ZenList

/-- `ListItem` from `shopping-list.tsx` (id, name, quantity, category, done).
Quantities are JS numbers used integrally; we model them as `Int`. -/
structure ListItem where
  id : String
  name : String
  quantity : Int
  category : String
  done : Bool
deriving DecidableEq, Repr

/-- An HTTP request issued by a mutation: the endpoint path and the
`itemID` field of the JSON body (for `submitLink` the `url` field), plus
the `quantity` field when present. -/
structure Request where
  endpoint : String
  itemID : String
  quantity : Option Int := none
deriving DecidableEq, Repr

/-- Snackbar message kind (`'success' | 'error'` in `SnackMessage`). -/
inductive SnackType where
  | success
  | error
deriving DecidableEq, Repr

/-- A snackbar message shown by `showSnack`. -/
structure Snack where
  message : String
  type : SnackType
deriving DecidableEq, Repr

/-- Result of one mutation handler: the new `items` state and the traces
of HTTP requests issued and snackbar messages shown, in order. -/
structure MutationResult where
  items : List ListItem
  requests : List Request
  snacks : List Snack
deriving DecidableEq, Repr

/-- `toggleItemDone` (shopping-list.tsx:165-192).  Optimistically maps the
targeted item's `done` to `doneStatus`, POSTs to `/done` or `/undone`,
and on failure (`ok = false`, covering both a network error and a non-ok
response) maps the targeted item's `done` to `!doneStatus` and shows an
error snack.  `errMsg` stands for the thrown error's message. -/
def toggleItemDone (itemId : String) (doneStatus : Bool) (ok : Bool)
    (errMsg : String) (items : List ListItem) : MutationResult :=
  let endpoint := if doneStatus then "/done" else "/undone"
  let optimistic := items.map fun item =>
    if item.id = itemId then { item with done := doneStatus } else item
  let req : Request := { endpoint := endpoint, itemID := itemId }
  if ok then
    { items := optimistic
      requests := [req]
      snacks := [⟨"הפריט סומן כ" ++ (if doneStatus then "בוצע" else "לא בוצע"), .success⟩] }
  else
    { items := optimistic.map fun item =>
        if item.id = itemId then { item with done := !doneStatus } else item
      requests := [req]
      snacks := [⟨"שגיאה בשינוי סטטוס: " ++ errMsg, .error⟩] }

/-- `deleteItem` (shopping-list.tsx:195-218).  Remembers the first item
with the given id, optimistically filters it out, POSTs to `/remove`, and
on failure re-appends the remembered item at the end of the list. -/
def deleteItem (itemId : String) (ok : Bool) (errMsg : String)
    (items : List ListItem) : MutationResult :=
  let itemToDelete := items.find? fun i => i.id = itemId
  let filtered := items.filter fun item => item.id ≠ itemId
  let req : Request := { endpoint := "/remove", itemID := itemId }
  if ok then
    { items := filtered, requests := [req], snacks := [] }
  else
    { items :=
        match itemToDelete with
        | some it => filtered ++ [it]
        | none => filtered
      requests := [req]
      snacks := [⟨"שגיאה בהסרת פריט: " ++ errMsg, .error⟩] }

/-- `updateItemQuantity` (shopping-list.tsx:221-248).  Remembers the first
matching item's quantity, optimistically sets the targeted item's
quantity, POSTs to `/quantity`, and on failure restores the remembered
quantity (when one was found). -/
def updateItemQuantity (itemId : String) (quantity : Int) (ok : Bool)
    (errMsg : String) (items : List ListItem) : MutationResult :=
  let prevQuantity := (items.find? fun i => i.id = itemId).map (·.quantity)
  let optimistic := items.map fun item =>
    if item.id = itemId then { item with quantity := quantity } else item
  let req : Request := { endpoint := "/quantity", itemID := itemId, quantity := some quantity }
  if ok then
    { items := optimistic
      requests := [req]
      snacks := [⟨"כמות הפריט עודכנה ל-" ++ toString quantity ++ ".", .success⟩] }
  else
    { items :=
        match prevQuantity with
        | some q0 => optimistic.map fun item =>
            if item.id = itemId then { item with quantity := q0 } else item
        | none => optimistic
      requests := [req]
      snacks := [⟨"שגיאה בעדכון כמות: " ++ errMsg, .error⟩] }

/-- `item.category || 'כללי'`: an empty category (the only falsy string)
is replaced by the default category. -/
def catOf (item : ListItem) : String :=
  if item.category = "" then "כללי" else item.category

/-- The `/remove` POST for one item id. -/
def removeReq (itemId : String) : Request :=
  { endpoint := "/remove", itemID := itemId }

/-- The sequential `for`-loop of `deleteAllInCategory`: issue one
`/remove` request per item; on the first failing request stop (the loop
body throws).  Returns the requests issued and whether all succeeded.
`ok` is the per-item outcome oracle of the remote calls. -/
def runCategoryDeletes (ok : String → Bool) : List ListItem → List Request × Bool
  | [] => ([], true)
  | item :: rest =>
    if ok item.id then
      let r := runCategoryDeletes ok rest
      (removeReq item.id :: r.1, r.2)
    else
      ([removeReq item.id], false)

/-- `deleteAllInCategory` (shopping-list.tsx:328-365).  Optimistically
drops the whole category, then deletes the category's items one by one;
on any failure the state is restored to the pre-operation snapshot. -/
def deleteAllInCategory (categoryTitle : String) (ok : String → Bool)
    (items : List ListItem) : MutationResult :=
  let remaining := items.filter fun item => catOf item ≠ categoryTitle
  let itemsInCategory := items.filter fun item => catOf item = categoryTitle
  let r := runCategoryDeletes ok itemsInCategory
  if r.2 then
    { items := remaining
      requests := r.1
      snacks := [⟨"הקטגוריה \"" ++ categoryTitle ++ "\" נמחקה בהצלחה.", .success⟩] }
  else
    { items := items
      requests := r.1
      snacks := [⟨"שגיאה במחיקת קטגוריה: הקטגוריה לא נמחקה במלואה.", .error⟩] }

/-! ### JSON model and the `load` functions -/

/-- A minimal JSON value, enough to model the parsed response bodies. -/
inductive Json where
  | null
  | bool (b : Bool)
  | num (q : ℚ)
  | str (s : String)
  | arr (elems : List Json)
  | obj (fields : List (String × Json))

/-- `Object.values(data)` in JS.  On `null` it throws a `TypeError`
(`none` here).  Otherwise it returns: for a plain object the field
values in insertion order, for an array its elements, for a string its
characters (as one-character strings), and `[]` for the remaining
primitives (numbers and booleans have no own enumerable properties). -/
def objectValues : Json → Option (List Json)
  | .null => none
  | .obj fields => some (fields.map Prod.snd)
  | .arr elems => some elems
  | .str s => some (s.data.map fun c => Json.str (String.mk [c]))
  | _ => some []

/-- The filter predicate of `load` in shopping-list.tsx:124-126:
`typeof item === 'object' && item !== null && 'id' in item`.  In JS only
plain objects can carry an `id` property among the values produced here. -/
def hasIdField : Json → Bool
  | .obj fields => fields.any fun f => f.1 = "id"
  | _ => false

/-- `load` for the shopping list (shopping-list.tsx:117-142): on a
successful fetch the `items` state is replaced by the object values of
the response that are objects with an `id` field.  When the parsed body
is the JSON literal `null`, `Object.values(data)` throws inside the
`try`, the `catch` sets an error message and `setItems` never runs, so
the previously held `prev` is kept. -/
def loadShoppingItems (data : Json) (prev : List Json) : List Json :=
  match objectValues data with
  | some vals => vals.filter hasIdField
  | none => prev

/-- `load` for receipts (receipts.tsx:269-281): on a successful fetch the
`receipts` state is replaced by the response array, or `[]` when the body
is not an array.  `prev` is the state held before the call. -/
def loadReceipts (data : Json) (prev : List Json) : List Json :=
  let _ := prev
  match data with
  | .arr elems => elems
  | _ => []

/-! ### Receipts: grouping by company and city -/

/-- `Receipt` from receipts.tsx.  `createdDate` is the parsed timestamp
(`new Date(iso).getTime()`, in milliseconds); `total` is the numeric
total. -/
structure Receipt where
  city : String
  company : String
  createdDate : Int
  file : String
  total : ℚ
deriving DecidableEq, Repr

/-- The section label `` `${r.company} – ${r.city}` ``. -/
def receiptLabel (r : Receipt) : String :=
  r.company ++ " – " ++ r.city

/-- A receipts section: title, receipts, and their summed totals. -/
structure RSection where
  title : String
  data : List Receipt
  sum : ℚ
deriving DecidableEq, Repr

/-- The comparator `(a, b) => time(b) - time(a)` sorts descending by
`createdDate`; a stable sort keeps `a` before `b` when the comparator is
`≤ 0`, i.e. when `time b ≤ time a`. -/
def newerLe (a b : Receipt) : Bool :=
  b.createdDate ≤ a.createdDate

/-- The keys of a JS `Map` (or plain object with string keys) built by
inserting every element of `l` under `key`: first-insertion order,
without duplicates. -/
def keysOf (key : α → String) : List α → List String
  | [] => []
  | a :: as => key a :: (keysOf key as).filter fun k => k ≠ key a

/-- `groupByCompanyCity` (receipts.tsx:69-87): sort the receipts by
`createdDate` descending, group them into a `Map` keyed by
`` `${company} – ${city}` `` (insertion order), and emit one section per
key with the receipts of that key and the sum of their totals. -/
def groupByCompanyCity (receipts : List Receipt) : List RSection :=
  let sorted := receipts.mergeSort newerLe
  (keysOf receiptLabel sorted).map fun title =>
    let data := sorted.filter fun r => receiptLabel r = title
    { title := title
      data := data
      sum := data.foldl (fun acc r => acc + r.total) 0 }

/-! ### Shopping list: grouping by category -/

/-- A shopping-list section produced by `categorizedItems`. -/
structure LSection where
  title : String
  data : List ListItem
  notDoneCount : Nat
deriving DecidableEq, Repr

/-- `a.name.localeCompare(b.name) ≤ 0`, modelled by the string order. -/
def nameLe (a b : ListItem) : Bool :=
  decide (a.name ≤ b.name)

/-- `a.title.localeCompare(b.title) ≤ 0` on sections. -/
def titleLe (a b : LSection) : Bool :=
  decide (a.title ≤ b.title)

/-- Build one section of `categorizedItems` from a category and its
items: not-done items sorted by name, then done items sorted by name. -/
def mkLSection (category : String) (group : List ListItem) : LSection :=
  let notDone := group.filter fun i => !i.done
  let done := group.filter fun i => i.done
  { title := category
    data := notDone.mergeSort nameLe ++ done.mergeSort nameLe
    notDoneCount := notDone.length }

/-- `categorizedItems` (shopping-list.tsx:301-325): group the items by
`category || 'כללי'` into an object (first-insertion key order), build a
section per key, and sort the sections by title. -/
def categorizedItems (items : List ListItem) : List LSection :=
  let sections := (keysOf catOf items).map fun category =>
    mkLSection category (items.filter fun i => catOf i = category)
  sections.mergeSort titleLe

/-! ### Supermarket: final price and cheapest offer -/

/-- A parsed price: `⊤` models JS `Infinity` (the claims only concern
finite parses, which are the coercions of rationals). -/
abbrev Price := WithTop ℚ

/-- The promo object kept per offer (only `DiscountedPrice` matters for
the price logic). -/
structure SMPromo where
  DiscountedPrice : Price
deriving DecidableEq

/-- A supermarket item as used by `getFinalPrice`: its parsed `ItemPrice`
and optional promo. -/
structure SMItem where
  ItemPrice : Price
  promo : Option SMPromo
deriving DecidableEq

/-- One offer of `item.Offers` in a `SupermarketCard`. -/
structure Offer where
  item : SMItem
  supermarket : String
  branch : String
deriving DecidableEq

/-- `getFinalPrice` (supermarket.tsx:67-71):
`Math.min(parseFloat(ItemPrice), promo ? parseFloat(promo.DiscountedPrice) : Infinity)`. -/
def getFinalPrice (item : SMItem) : Price :=
  let itemPrice := item.ItemPrice
  let promoPrice := match item.promo with
    | some p => p.DiscountedPrice
    | none => (⊤ : Price)
  min itemPrice promoPrice

/-- `cheapestPrice` (supermarket.tsx:289-295):
`offers.reduce((min, o) => Math.min(min, getFinalPrice(o.item)), Infinity)`,
with `Infinity` for an empty offer list. -/
def cheapestPrice (offers : List Offer) : Price :=
  offers.foldl (fun m offer => min m (getFinalPrice offer.item)) (⊤ : Price)

/-- `isCheapest` (supermarket.tsx:309): the offer is tagged `הכי זול`
exactly when `finalPrice === cheapestPrice`. -/
def isCheapest (offer : Offer) (offers : List Offer) : Bool :=
  getFinalPrice offer.item = cheapestPrice offers

/-! ### Receipts: submitting a pasted link -/

/-- Result of `submitLink`: the requests issued (the `/fetchReceipt` POST
and, on success, the reload GET) and the snackbar messages shown.
Receipt-screen snacks are plain strings. -/
structure SubmitResult where
  requests : List Request
  snacks : List String
deriving DecidableEq, Repr

/-- `l₂` occurs as a contiguous run starting at the head of `l₁`. -/
def startsWithList [DecidableEq α] : List α → List α → Bool
  | _, [] => true
  | [], _ :: _ => false
  | a :: as, b :: bs => a = b && startsWithList as bs

/-- `hay.includes(needle)`: some suffix of `hay` starts with `needle`. -/
def strIncludes (hay needle : String) : Bool :=
  go hay.data needle.data
where
  go : List Char → List Char → Bool
    | [], n => startsWithList [] n
    | a :: as, n => startsWithList (a :: as) n || go as n

/-- `submitLink` (receipts.tsx:131-177): POST the url to `/fetchReceipt`;
on success reload the receipts and show a success snack; on failure show
the localized error message (a dedicated one when the response body
includes "already exists", otherwise the status code). -/
def submitLink (url : String) (ok : Bool) (status : Nat)
    (responseBody : String) : SubmitResult :=
  let post : Request := { endpoint := "/fetchReceipt", itemID := url }
  if ok then
    { requests := [post, { endpoint := "/receipts", itemID := "" }]
      snacks := ["הקבלה נוספה בהצלחה!"] }
  else
    let errorMessage :=
      if strIncludes responseBody "already exists" then
        "הקישור כבר קיים במערכת"
      else
        "שגיאה בשרת: " ++ toString status
    { requests := [post], snacks := [errorMessage] }

/-! ### Shopping list row: quantity controls -/

/-- The increment button (shopping-list.tsx:841):
`onUpdateQuantity(item.id, item.quantity + 1)`. -/
def incQuantity (q : Int) : Int :=
  q + 1

/-- The decrement button (shopping-list.tsx:845):
`onUpdateQuantity(item.id, Math.max(1, item.quantity - 1))`. -/
def decQuantity (q : Int) : Int :=
  max 1 (q - 1)

/-- One press of a quantity control changes the displayed quantity to the
requested one (on a successful round trip through `updateItemQuantity`). -/
inductive QuantityStep : Int → Int → Prop where
  | inc (q : Int) : QuantityStep q (incQuantity q)
  | dec (q : Int) : QuantityStep q (decQuantity q)

/-- Quantities reachable from `q₀` through the two row controls. -/
def QuantityReachable (q₀ q : Int) : Prop :=
  Relation.ReflTransGen QuantityStep q₀ q

/-! ### Concrete sample data used by the witness theorems -/

/-- Concrete receipts exercising the grouping theorem. -/
def sampleReceipts : List Receipt :=
  [⟨"tlv", "A", 5, "f1", 10⟩, ⟨"jlm", "B", 7, "f2", 3⟩, ⟨"tlv", "A", 6, "f3", 2⟩]

/-- Concrete data used to exercise the bulk-delete theorems. -/
def sampleItems : List ListItem :=
  [⟨"1", "apples", 1, "fruit", false⟩, ⟨"2", "bananas", 2, "fruit", false⟩,
   ⟨"3", "soap", 1, "home", false⟩]

/-- A request oracle whose remote call fails exactly for item id "2". -/
def sampleOkFail : String → Bool := fun id => id ≠ "2"

def c9Offers : List Offer :=
  [⟨⟨(5 : ℚ), some ⟨(3 : ℚ)⟩⟩, "yohananof", "center"⟩,
   ⟨⟨(4 : ℚ), none⟩, "osherad", "north"⟩]

/-! ## Helper lemmas -/

theorem map_self_of_mem {f : α → α} {l : List α} (h : ∀ x ∈ l, f x = x) :
    l.map f = l :=
  (List.map_congr_left h).trans l.map_id

theorem keysOf_nodup (key : α → String) (l : List α) : (keysOf key l).Nodup := by
  induction l with
  | nil => exact List.nodup_nil
  | cons a as ih =>
    simp only [keysOf]
    refine List.nodup_cons.mpr ⟨?_, ih.filter _⟩
    intro hmem
    have := List.of_mem_filter hmem
    simp at this

theorem mem_keysOf {key : α → String} {l : List α} {k : String} :
    k ∈ keysOf key l ↔ ∃ a ∈ l, key a = k := by
  induction l with
  | nil => simp [keysOf]
  | cons a as ih =>
    simp only [keysOf, List.mem_cons, List.mem_filter, ih]
    constructor
    · rintro (rfl | ⟨⟨x, hx, rfl⟩, -⟩)
      · exact ⟨a, Or.inl rfl, rfl⟩
      · exact ⟨x, Or.inr hx, rfl⟩
    · rintro ⟨x, hx, rfl⟩
      rcases hx with rfl | hx'
      · left; rfl
      · by_cases hk : key x = key a
        · left; exact hk
        · right
          exact ⟨⟨x, hx', rfl⟩, by simpa using hk⟩

/-- Concatenating, over a duplicate-free key list covering `l`, the
sublists of `l` with each key yields a permutation of `l`. -/
theorem flatten_filter_perm (key : α → String) :
    ∀ (ks : List String) (l : List α), ks.Nodup → (∀ a ∈ l, key a ∈ ks) →
      List.Perm (List.flatten (ks.map fun k => l.filter fun a => key a = k)) l := by
  intro ks
  induction ks with
  | nil =>
    intro l _ hcov
    have hl : l = [] := by
      cases l with
      | nil => rfl
      | cons a as => exact absurd (hcov a (List.mem_cons_self a as)) (List.not_mem_nil _)
    subst hl
    simp
  | cons k ks ih =>
    intro l hnodup hcov
    obtain ⟨hknot, hnd⟩ := List.nodup_cons.mp hnodup
    simp only [List.map_cons, List.flatten_cons]
    have hinner : ∀ k' ∈ ks, l.filter (fun a => key a = k')
        = (l.filter fun a => key a ≠ k).filter fun a => key a = k' := by
      intro k' hk'
      rw [List.filter_filter]
      apply List.filter_congr
      intro x _
      have hne : k' ≠ k := fun h => hknot (h ▸ hk')
      by_cases h : key x = k'
      · simp [h, hne]
      · simp [h]
    rw [List.map_congr_left hinner]
    have hcov' : ∀ a ∈ l.filter (fun a => key a ≠ k), key a ∈ ks := by
      intro a ha
      have h1 := List.mem_of_mem_filter ha
      have h2 := List.of_mem_filter ha
      rcases List.mem_cons.mp (hcov a h1) with h | h
      · exact absurd h (by simpa using h2)
      · exact h
    refine List.Perm.trans (List.Perm.append_left _ (ih _ hnd hcov')) ?_
    have hbase := List.filter_append_perm (fun a => decide (key a = k)) l
    have hcg : l.filter (fun x => !decide (key x = k)) = l.filter fun a => key a ≠ k := by
      apply List.filter_congr
      intro x _
      simp
    rw [hcg] at hbase
    exact hbase

/-- In a pairwise-`R` list, a key that first occurs earlier has a
representative `R`-related to every element carrying a key that first
occurs later. -/
theorem keysOf_pairwise_exists (key : α → String) (R : α → α → Prop) :
    ∀ (l : List α), l.Pairwise R →
      (keysOf key l).Pairwise fun k₁ k₂ =>
        ∃ a ∈ l, key a = k₁ ∧ ∀ b ∈ l, key b = k₂ → R a b := by
  intro l
  induction l with
  | nil => intro _; simp [keysOf]
  | cons a as ih =>
    intro hp
    obtain ⟨ha, has⟩ := List.pairwise_cons.mp hp
    simp only [keysOf]
    refine List.Pairwise.cons ?_ ?_
    · intro k₂ hk₂
      have hk₂ne : k₂ ≠ key a := by simpa using List.of_mem_filter hk₂
      refine ⟨a, List.mem_cons_self a as, rfl, ?_⟩
      intro b hb hkb
      rcases List.mem_cons.mp hb with rfl | hb'
      · exact absurd hkb.symm hk₂ne
      · exact ha b hb'
    · have hfil : ((keysOf key as).filter fun k' => k' ≠ key a).Pairwise
          (fun k₁ k₂ => ∃ x ∈ as, key x = k₁ ∧ ∀ b ∈ as, key b = k₂ → R x b) :=
        List.Pairwise.sublist (List.filter_sublist _) (ih has)
      refine List.Pairwise.imp_of_mem ?_ hfil
      intro k₁ k₂ hk₁ hk₂ hex
      obtain ⟨x, hx, hkx, hall⟩ := hex
      refine ⟨x, List.mem_cons_of_mem _ hx, hkx, ?_⟩
      intro b hb hkb
      rcases List.mem_cons.mp hb with rfl | hb'
      · have hne : k₂ ≠ key b := by simpa using List.of_mem_filter hk₂
        exact absurd hkb.symm hne
      · exact hall b hb' hkb

/-- Pointwise permutations of the grouped sublists carry over to their
concatenation. -/
theorem flatten_map_perm_of_pointwise {β : Type} (ks : List β) (f g : β → List α)
    (h : ∀ k ∈ ks, List.Perm (f k) (g k)) :
    List.Perm (List.flatten (ks.map f)) (List.flatten (ks.map g)) := by
  induction ks with
  | nil => simp
  | cons k ks ih =>
    simp only [List.map_cons, List.flatten_cons]
    exact (h k (List.mem_cons_self k ks)).append
      (ih fun k' hk' => h k' (List.mem_cons_of_mem _ hk'))

theorem foldl_add_totals (l : List Receipt) (a : ℚ) :
    l.foldl (fun acc r => acc + r.total) a = a + (l.map Receipt.total).sum := by
  induction l generalizing a with
  | nil => simp
  | cons r rs ih => simp [ih, add_assoc]

theorem runCategoryDeletes_all_ok (ok : String → Bool) (l : List ListItem)
    (h : ∀ x ∈ l, ok x.id = true) :
    runCategoryDeletes ok l = (l.map fun item => removeReq item.id, true) := by
  induction l with
  | nil => rfl
  | cons a as ih =>
    have ha := h a (List.mem_cons_self a as)
    have hrest := ih fun x hx => h x (List.mem_cons_of_mem _ hx)
    simp [runCategoryDeletes, ha, hrest]

theorem runCategoryDeletes_first_fail (ok : String → Bool) (pre : List ListItem)
    (failItem : ListItem) (post : List ListItem)
    (hpre : ∀ x ∈ pre, ok x.id = true) (hf : ok failItem.id = false) :
    runCategoryDeletes ok (pre ++ failItem :: post)
      = ((pre.map fun item => removeReq item.id) ++ [removeReq failItem.id], false) := by
  induction pre with
  | nil => simp [runCategoryDeletes, hf]
  | cons a as ih =>
    have ha := hpre a (List.mem_cons_self a as)
    have hrest := ih fun x hx => hpre x (List.mem_cons_of_mem _ hx)
    simp [runCategoryDeletes, ha, hrest]

theorem runCategoryDeletes_success_iff (ok : String → Bool) (l : List ListItem) :
    (runCategoryDeletes ok l).2 = true ↔ ∀ x ∈ l, ok x.id = true := by
  induction l with
  | nil => simp [runCategoryDeletes]
  | cons a as ih =>
    cases h : ok a.id with
    | false =>
      simp only [runCategoryDeletes, h, Bool.false_eq_true, if_false]
      constructor
      · intro hfalse; cases hfalse
      · intro hall
        rw [hall a (List.mem_cons_self a as)] at h
        cases h
    | true =>
      simp only [runCategoryDeletes, h, if_true]
      rw [ih]
      constructor
      · intro hall x hx
        rcases List.mem_cons.mp hx with rfl | hx'
        · exact h
        · exact hall x hx'
      · intro hall x hx
        exact hall x (List.mem_cons_of_mem _ hx)

theorem runCategoryDeletes_requests_sublist (ok : String → Bool) (l : List ListItem) :
    ∃ l', List.Sublist l' l ∧
      (runCategoryDeletes ok l).1 = List.map (fun item => removeReq item.id) l' := by
  induction l with
  | nil => exact ⟨[], List.Sublist.refl _, rfl⟩
  | cons a as ih =>
    cases h : ok a.id with
    | true =>
      obtain ⟨l', hsub, heq⟩ := ih
      refine ⟨a :: l', List.Sublist.cons₂ a hsub, ?_⟩
      simp [runCategoryDeletes, h, heq]
    | false =>
      refine ⟨[a], ?_, by simp [runCategoryDeletes, h]⟩
      exact List.Sublist.cons₂ a (List.nil_sublist as)

/-- Specification of the `reduce(Math.min, Infinity)` fold behind
`cheapestPrice`, generalized over the accumulator. -/
theorem cheapest_foldl_spec (offers : List Offer) (a : Price) :
    (offers.foldl (fun m o => min m (getFinalPrice o.item)) a = a ∨
      ∃ o ∈ offers,
        offers.foldl (fun m o => min m (getFinalPrice o.item)) a = getFinalPrice o.item) ∧
    offers.foldl (fun m o => min m (getFinalPrice o.item)) a ≤ a ∧
    ∀ o ∈ offers,
      offers.foldl (fun m o => min m (getFinalPrice o.item)) a ≤ getFinalPrice o.item := by
  induction offers generalizing a with
  | nil => simp
  | cons o os ih =>
    simp only [List.foldl_cons]
    obtain ⟨hmem, hle, hall⟩ := ih (min a (getFinalPrice o.item))
    refine ⟨?_, hle.trans (min_le_left _ _), ?_⟩
    · rcases hmem with h | ⟨o', ho', h⟩
      · rcases min_cases a (getFinalPrice o.item) with ⟨hmin, _⟩ | ⟨hmin, _⟩
        · left; rw [h, hmin]
        · right; exact ⟨o, by simp, by rw [h, hmin]⟩
      · right; exact ⟨o', by simp [ho'], h⟩
    · intro x hx
      rcases List.mem_cons.mp hx with rfl | hx
      · exact hle.trans (min_le_right _ _)
      · exact hall x hx

/-! ## Claims -/

/-- C10: the quantity controls on a shopping-list row never request a
quantity below 1: the increment button requests `quantity + 1`, the
decrement button requests `max 1 (quantity - 1)`, and every quantity
reachable through the two controls from a starting quantity of at least
1 stays at least 1. -/
theorem quantity_controls_keep_at_least_one (q₀ q : Int) (h₀ : 1 ≤ q₀) :
    (1 ≤ incQuantity q₀ ∧ 1 ≤ decQuantity q₀) ∧
    (QuantityReachable q₀ q → 1 ≤ q) := by
  constructor
  · constructor
    · simp only [incQuantity]; omega
    · simp only [decQuantity]; omega
  · intro hr
    induction hr with
    | refl => exact h₀
    | tail _ step ih =>
      cases step with
      | inc => simp only [incQuantity]; omega
      | dec => exact le_max_left 1 _

theorem quantity_controls_keep_at_least_one_witness :
    1 ≤ (3 : Int) ∧
    ((1 ≤ incQuantity 3 ∧ 1 ≤ decQuantity 3) ∧ (QuantityReachable 3 2 → 1 ≤ (2 : Int))) :=
  ⟨by decide, quantity_controls_keep_at_least_one 3 2 (by decide)⟩

/-- C7 counterexample: on a successful fetch whose parsed body is the
JSON literal `null`, `Object.values(data)` throws, the catch keeps the
previous items, and the resulting shopping-list state therefore depends
on the previously held items: two different previous states give two
different results, refuting the claimed wholesale replacement at that
input. -/
theorem load_null_keeps_previous_items :
    loadShoppingItems Json.null [Json.str "x"]
      ≠ loadShoppingItems Json.null [] := by
  intro h
  exact List.cons_ne_nil _ _ h

/-- C7 (amended): after a successful fetch whose parsed body is not the
JSON literal `null`, `load` replaces the shopping-list state wholesale
with the object values of the response that are objects with an `id`
field, independently of the previously held items; on a `null` body
`Object.values` throws, the error path runs and the previous items are
kept unchanged.  For receipts the replacement is unconditional: the
response array, or `[]` when the body is not an array, independently of
the previous receipts. -/
theorem load_replaces_state_wholesale :
    (∀ (data : Json) prev prev', data ≠ Json.null →
      loadShoppingItems data prev = loadShoppingItems data prev') ∧
    (∀ (data : Json) prev, data ≠ Json.null →
      ∃ vals, objectValues data = some vals ∧
        loadShoppingItems data prev = vals.filter hasIdField) ∧
    (∀ prev, loadShoppingItems Json.null prev = prev) ∧
    (∀ data prev prev', loadReceipts data prev = loadReceipts data prev') ∧
    (∀ data prev, loadReceipts data prev =
      match data with
      | .arr elems => elems
      | _ => []) := by
  refine ⟨?_, ?_, fun _ => rfl, fun _ _ _ => rfl, fun _ _ => rfl⟩
  · intro data prev prev' hne
    cases data with
    | null => exact absurd rfl hne
    | bool b => rfl
    | num q => rfl
    | str s => rfl
    | arr elems => rfl
    | obj fields => rfl
  · intro data prev hne
    cases data with
    | null => exact absurd rfl hne
    | bool b => exact ⟨[], rfl, rfl⟩
    | num q => exact ⟨[], rfl, rfl⟩
    | str s => exact ⟨_, rfl, rfl⟩
    | arr elems => exact ⟨elems, rfl, rfl⟩
    | obj fields => exact ⟨_, rfl, rfl⟩

theorem load_replaces_state_wholesale_witness :
    (Json.obj [("a", Json.obj [("id", Json.num 1)]), ("b", Json.num 2)]
      ≠ Json.null) ∧
    loadShoppingItems
        (Json.obj [("a", Json.obj [("id", Json.num 1)]), ("b", Json.num 2)])
        [Json.str "stale"]
      = loadShoppingItems
          (Json.obj [("a", Json.obj [("id", Json.num 1)]), ("b", Json.num 2)])
          [] :=
  ⟨fun h => Json.noConfusion h,
    load_replaces_state_wholesale.1
      (Json.obj [("a", Json.obj [("id", Json.num 1)]), ("b", Json.num 2)])
      [Json.str "stale"] [] (fun h => Json.noConfusion h)⟩

theorem newerLe_trans (a b c : Receipt) :
    newerLe a b = true → newerLe b c = true → newerLe a c = true := by
  simp only [newerLe, decide_eq_true_eq]
  omega

theorem newerLe_total (a b : Receipt) : (newerLe a b || newerLe b a) = true := by
  simp only [newerLe, Bool.or_eq_true, decide_eq_true_eq]
  omega

/-- C5: `groupByCompanyCity` puts every receipt in exactly one section —
the one titled `company – city` (titles are duplicate-free, every
receipt's label has a section, a receipt belongs to a section exactly
when its label matches the title, and the concatenated sections are a
permutation of the input); within each section receipts are ordered by
`createdDate` descending; sections are ordered by the `createdDate` of
their newest receipt descending; and each section's `sum` is the sum of
its receipts' totals. -/
theorem groupByCompanyCity_spec (receipts : List Receipt) :
    ((groupByCompanyCity receipts).map RSection.title).Nodup ∧
    (∀ r ∈ receipts, ∃ s ∈ groupByCompanyCity receipts, s.title = receiptLabel r) ∧
    (∀ s ∈ groupByCompanyCity receipts, ∀ r,
      r ∈ s.data ↔ (r ∈ receipts ∧ receiptLabel r = s.title)) ∧
    (∀ s ∈ groupByCompanyCity receipts,
      s.data.Pairwise fun a b => b.createdDate ≤ a.createdDate) ∧
    (groupByCompanyCity receipts).Pairwise (fun s₁ s₂ =>
      ∃ r₁ ∈ s₁.data, ∀ r₂ ∈ s₂.data, r₂.createdDate ≤ r₁.createdDate) ∧
    (∀ s ∈ groupByCompanyCity receipts, s.sum = (s.data.map Receipt.total).sum) ∧
    List.Perm (List.flatten ((groupByCompanyCity receipts).map RSection.data))
      receipts := by
  have hsorted : (receipts.mergeSort newerLe).Pairwise fun a b => newerLe a b = true :=
    List.sorted_mergeSort newerLe_trans newerLe_total receipts
  have hperm : List.Perm (receipts.mergeSort newerLe) receipts :=
    List.mergeSort_perm receipts newerLe
  have hgroup : groupByCompanyCity receipts
      = (keysOf receiptLabel (receipts.mergeSort newerLe)).map (fun title =>
          { title := title
            data := (receipts.mergeSort newerLe).filter fun r => receiptLabel r = title
            sum := ((receipts.mergeSort newerLe).filter
                fun r => receiptLabel r = title).foldl
                (fun acc r => acc + r.total) 0 }) := rfl
  refine ⟨?_, ?_, ?_, ?_, ?_, ?_, ?_⟩
  · rw [hgroup, List.map_map]
    have hid : (keysOf receiptLabel (receipts.mergeSort newerLe)).map
        (RSection.title ∘ fun title =>
          ({ title := title
             data := (receipts.mergeSort newerLe).filter fun r => receiptLabel r = title
             sum := ((receipts.mergeSort newerLe).filter
                 fun r => receiptLabel r = title).foldl
                 (fun acc r => acc + r.total) 0 } : RSection))
        = keysOf receiptLabel (receipts.mergeSort newerLe) :=
      (List.map_congr_left fun t _ => rfl).trans (List.map_id _)
    rw [hid]
    exact keysOf_nodup receiptLabel (receipts.mergeSort newerLe)
  · intro r hr
    have hrs : r ∈ receipts.mergeSort newerLe := hperm.symm.subset hr
    have hk : receiptLabel r ∈ keysOf receiptLabel (receipts.mergeSort newerLe) :=
      mem_keysOf.mpr ⟨r, hrs, rfl⟩
    rw [hgroup]
    exact ⟨_, List.mem_map_of_mem _ hk, rfl⟩
  · intro s hs r
    rw [hgroup] at hs
    obtain ⟨t, ht, rfl⟩ := List.mem_map.mp hs
    simp only [List.mem_filter]
    constructor
    · rintro ⟨hrs, hlab⟩
      exact ⟨hperm.subset hrs, by simpa using hlab⟩
    · rintro ⟨hrr, hlab⟩
      exact ⟨hperm.symm.subset hrr, by simpa using hlab⟩
  · intro s hs
    rw [hgroup] at hs
    obtain ⟨t, ht, rfl⟩ := List.mem_map.mp hs
    have hfil := List.Pairwise.filter (fun r => decide (receiptLabel r = t)) hsorted
    exact hfil.imp fun h => by simpa [newerLe] using h
  · rw [hgroup, List.pairwise_map]
    have hkp := keysOf_pairwise_exists receiptLabel (fun a b => newerLe a b = true)
      (receipts.mergeSort newerLe) hsorted
    refine hkp.imp ?_
    intro k₁ k₂ hex
    obtain ⟨a, has, hka, hall⟩ := hex
    refine ⟨a, List.mem_filter.mpr ⟨has, by simpa using hka⟩, ?_⟩
    intro r₂ hr₂
    have h1 := List.mem_of_mem_filter hr₂
    have h2 := List.of_mem_filter hr₂
    have h3 := hall r₂ h1 (by simpa using h2)
    simpa [newerLe] using h3
  · intro s hs
    rw [hgroup] at hs
    obtain ⟨t, ht, rfl⟩ := List.mem_map.mp hs
    show ((receipts.mergeSort newerLe).filter
        fun r => receiptLabel r = t).foldl (fun acc r => acc + r.total) 0 = _
    rw [foldl_add_totals, zero_add]
  · rw [hgroup, List.map_map]
    have hdata : (keysOf receiptLabel (receipts.mergeSort newerLe)).map
        (RSection.data ∘ fun title =>
          ({ title := title
             data := (receipts.mergeSort newerLe).filter fun r => receiptLabel r = title
             sum := ((receipts.mergeSort newerLe).filter
                 fun r => receiptLabel r = title).foldl
                 (fun acc r => acc + r.total) 0 } : RSection))
        = (keysOf receiptLabel (receipts.mergeSort newerLe)).map
            (fun t => (receipts.mergeSort newerLe).filter fun r => receiptLabel r = t) :=
      List.map_congr_left fun t _ => rfl
    rw [hdata]
    exact (flatten_filter_perm receiptLabel _ _
      (keysOf_nodup receiptLabel (receipts.mergeSort newerLe))
      (fun a ha => mem_keysOf.mpr ⟨a, ha, rfl⟩)).trans hperm

theorem nameLe_trans (a b c : ListItem) :
    nameLe a b = true → nameLe b c = true → nameLe a c = true := by
  simp only [nameLe, decide_eq_true_eq]
  exact le_trans

theorem nameLe_total (a b : ListItem) : (nameLe a b || nameLe b a) = true := by
  simp only [nameLe, Bool.or_eq_true, decide_eq_true_eq]
  exact le_total _ _

theorem titleLe_trans (a b c : LSection) :
    titleLe a b = true → titleLe b c = true → titleLe a c = true := by
  simp only [titleLe, decide_eq_true_eq]
  exact le_trans

theorem titleLe_total (a b : LSection) : (titleLe a b || titleLe b a) = true := by
  simp only [titleLe, Bool.or_eq_true, decide_eq_true_eq]
  exact le_total _ _

/-- C6: `categorizedItems` partitions the items by category (with the
empty category replaced by `'כללי'`): section titles are duplicate-free,
every item's category has a section, an item belongs to a section
exactly when its category matches the title, and the concatenated
sections are a permutation of the input; sections are sorted by title;
inside a section the not-done items, sorted by name, precede the done
items, sorted by name; and `notDoneCount` counts the section's not-done
items. -/
theorem categorizedItems_spec (items : List ListItem) :
    ((categorizedItems items).map LSection.title).Nodup ∧
    (∀ i ∈ items, ∃ s ∈ categorizedItems items, s.title = catOf i) ∧
    (∀ s ∈ categorizedItems items, ∀ i,
      i ∈ s.data ↔ (i ∈ items ∧ catOf i = s.title)) ∧
    (categorizedItems items).Pairwise (fun s₁ s₂ => s₁.title ≤ s₂.title) ∧
    (∀ s ∈ categorizedItems items, ∃ nd d,
      s.data = nd ++ d ∧
      (∀ x ∈ nd, x.done = false) ∧ (∀ x ∈ d, x.done = true) ∧
      nd.Pairwise (fun a b => a.name ≤ b.name) ∧
      d.Pairwise (fun a b => a.name ≤ b.name) ∧
      s.notDoneCount = nd.length ∧
      s.notDoneCount = (s.data.filter fun i => !i.done).length) ∧
    List.Perm (List.flatten ((categorizedItems items).map LSection.data)) items := by
  have hps : categorizedItems items
      = ((keysOf catOf items).map fun category =>
          mkLSection category (items.filter fun i => catOf i = category)).mergeSort
          titleLe := rfl
  have hperm : List.Perm (categorizedItems items)
      ((keysOf catOf items).map fun category =>
        mkLSection category (items.filter fun i => catOf i = category)) := by
    rw [hps]
    exact List.mergeSort_perm _ _
  refine ⟨?_, ?_, ?_, ?_, ?_, ?_⟩
  · have htitles : (((keysOf catOf items).map fun category =>
        mkLSection category (items.filter fun i => catOf i = category)).map
          LSection.title)
        = keysOf catOf items := by
      rw [List.map_map]
      exact (List.map_congr_left fun t _ => rfl).trans (List.map_id _)
    have h1 : (((keysOf catOf items).map fun category =>
        mkLSection category (items.filter fun i => catOf i = category)).map
          LSection.title).Nodup := by
      rw [htitles]
      exact keysOf_nodup catOf items
    exact ((hperm.map LSection.title).symm).nodup h1
  · intro i hi
    have hk : catOf i ∈ keysOf catOf items := mem_keysOf.mpr ⟨i, hi, rfl⟩
    exact ⟨mkLSection (catOf i) (items.filter fun x => catOf x = catOf i),
      hperm.symm.subset (List.mem_map_of_mem _ hk), rfl⟩
  · intro s hs i
    obtain ⟨c, hc, rfl⟩ := List.mem_map.mp (hperm.subset hs)
    simp only [mkLSection, List.mem_append]
    constructor
    · intro h
      rcases h with h | h
      · have h1 := (List.mergeSort_perm _ nameLe).subset h
        have h2 := List.mem_filter.mp (List.mem_of_mem_filter h1)
        exact ⟨h2.1, by simpa using h2.2⟩
      · have h1 := (List.mergeSort_perm _ nameLe).subset h
        have h2 := List.mem_filter.mp (List.mem_of_mem_filter h1)
        exact ⟨h2.1, by simpa using h2.2⟩
    · rintro ⟨hii, hcat⟩
      have hgrp : i ∈ items.filter fun x => catOf x = c :=
        List.mem_filter.mpr ⟨hii, by simpa using hcat⟩
      cases hdone : i.done with
      | false =>
        exact Or.inl (((List.mergeSort_perm _ nameLe).mem_iff).mpr
          (List.mem_filter.mpr ⟨hgrp, by simp [hdone]⟩))
      | true =>
        exact Or.inr (((List.mergeSort_perm _ nameLe).mem_iff).mpr
          (List.mem_filter.mpr ⟨hgrp, by simp [hdone]⟩))
  · rw [hps]
    have hsorted := List.sorted_mergeSort titleLe_trans titleLe_total
      ((keysOf catOf items).map fun category =>
        mkLSection category (items.filter fun i => catOf i = category))
    exact hsorted.imp fun h => by simpa [titleLe] using h
  · intro s hs
    obtain ⟨c, hc, rfl⟩ := List.mem_map.mp (hperm.subset hs)
    refine ⟨((items.filter fun i => catOf i = c).filter fun i => !i.done).mergeSort nameLe,
      ((items.filter fun i => catOf i = c).filter fun i => i.done).mergeSort nameLe,
      ?_, ?_, ?_, ?_, ?_, ?_, ?_⟩
    · rfl
    · intro x hx
      have h1 := List.of_mem_filter ((List.mergeSort_perm _ nameLe).subset hx)
      simpa using h1
    · intro x hx
      exact List.of_mem_filter ((List.mergeSort_perm _ nameLe).subset hx)
    · have hsted := List.sorted_mergeSort nameLe_trans nameLe_total
        ((items.filter fun i => catOf i = c).filter fun i => !i.done)
      exact hsted.imp fun h => by simpa [nameLe] using h
    · have hsted := List.sorted_mergeSort nameLe_trans nameLe_total
        ((items.filter fun i => catOf i = c).filter fun i => i.done)
      exact hsted.imp fun h => by simpa [nameLe] using h
    · exact ((List.mergeSort_perm _ nameLe).length_eq).symm
    · simp only [mkLSection]
      rw [List.filter_append]
      have hnd : ((((items.filter fun i => catOf i = c).filter
            fun i => !i.done).mergeSort nameLe).filter fun i => !i.done)
          = (((items.filter fun i => catOf i = c).filter
            fun i => !i.done).mergeSort nameLe) := by
        apply List.filter_eq_self.mpr
        intro x hx
        have hmem := (List.mergeSort_perm ((items.filter
          fun i => catOf i = c).filter fun i => !i.done) nameLe).subset hx
        have hp := List.of_mem_filter hmem
        exact hp
      have hd : ((((items.filter fun i => catOf i = c).filter
            fun i => i.done).mergeSort nameLe).filter fun i => !i.done) = [] := by
        apply List.filter_eq_nil_iff.mpr
        intro x hx
        have hxd := List.of_mem_filter ((List.mergeSort_perm ((items.filter
          fun i => catOf i = c).filter fun i => i.done) nameLe).subset hx)
        simp [hxd]
      rw [hnd, hd, List.length_append, List.length_nil]
      have hlen := (List.mergeSort_perm ((items.filter fun i => catOf i = c).filter
        fun i => !i.done) nameLe).length_eq
      omega
  · have h1 : List.Perm (List.flatten ((categorizedItems items).map LSection.data))
        (List.flatten (((keysOf catOf items).map fun category =>
          mkLSection category (items.filter fun i => catOf i = category)).map
            LSection.data)) :=
      (hperm.map LSection.data).flatten
    have h2 : (((keysOf catOf items).map fun category =>
          mkLSection category (items.filter fun i => catOf i = category)).map
            LSection.data)
        = (keysOf catOf items).map (fun c =>
            ((items.filter fun i => catOf i = c).filter fun i => !i.done).mergeSort nameLe
              ++ ((items.filter fun i => catOf i = c).filter
                fun i => i.done).mergeSort nameLe) := by
      rw [List.map_map]
      exact List.map_congr_left fun c _ => rfl
    have h3 : List.Perm
        (List.flatten ((keysOf catOf items).map (fun c =>
          ((items.filter fun i => catOf i = c).filter fun i => !i.done).mergeSort nameLe
            ++ ((items.filter fun i => catOf i = c).filter
              fun i => i.done).mergeSort nameLe)))
        (List.flatten ((keysOf catOf items).map (fun c =>
          items.filter fun i => catOf i = c))) := by
      apply flatten_map_perm_of_pointwise
      intro c _
      have ha := (List.mergeSort_perm ((items.filter fun i => catOf i = c).filter
          fun i => !i.done) nameLe).append
        (List.mergeSort_perm ((items.filter fun i => catOf i = c).filter
          fun i => i.done) nameLe)
      have hb := List.filter_append_perm (fun i => !i.done)
        (items.filter fun i => catOf i = c)
      have hcg : ((items.filter fun i => catOf i = c).filter fun x => !(!x.done))
          = ((items.filter fun i => catOf i = c).filter fun x => x.done) :=
        List.filter_congr fun x _ => by simp
      rw [hcg] at hb
      exact ha.trans hb
    have h4 : List.Perm
        (List.flatten ((keysOf catOf items).map (fun c =>
          items.filter fun i => catOf i = c))) items :=
      flatten_filter_perm catOf _ _ (keysOf_nodup catOf items)
        (fun a ha => mem_keysOf.mpr ⟨a, ha, rfl⟩)
    exact h1.trans ((h2 ▸ h3).trans h4)

theorem groupByCompanyCity_spec_witness :
    (∃ s ∈ groupByCompanyCity sampleReceipts,
      s.title = receiptLabel ⟨"tlv", "A", 5, "f1", 10⟩) ∧
    ((groupByCompanyCity sampleReceipts).map RSection.title).Nodup := by
  obtain ⟨h1, h2, -, -, -, -, -⟩ := groupByCompanyCity_spec sampleReceipts
  exact ⟨h2 ⟨"tlv", "A", 5, "f1", 10⟩ (by decide), h1⟩

theorem categorizedItems_spec_witness :
    (∃ s ∈ categorizedItems sampleItems,
      s.title = catOf ⟨"1", "apples", 1, "fruit", false⟩) ∧
    (categorizedItems sampleItems).Pairwise (fun s₁ s₂ => s₁.title ≤ s₂.title) := by
  obtain ⟨-, h2, -, h4, -, -⟩ := categorizedItems_spec sampleItems
  exact ⟨h2 ⟨"1", "apples", 1, "fruit", false⟩ (by decide), h4⟩

/-- C3: `deleteAllInCategory` removes every item of the category
(an empty category counting as `'כללי'` via `catOf`) and issues one
`/remove` request per removed item in sequence; when every request
succeeds the final list is exactly the items of the other categories;
when a request fails, no request is issued past the failing one and the
local list is restored to exactly the pre-operation snapshot. -/
theorem deleteAllInCategory_spec (categoryTitle : String) (ok : String → Bool)
    (items : List ListItem) :
    ((∀ item ∈ items.filter (fun item => catOf item = categoryTitle), ok item.id = true) →
      (deleteAllInCategory categoryTitle ok items).items
        = items.filter (fun item => catOf item ≠ categoryTitle) ∧
      (deleteAllInCategory categoryTitle ok items).requests
        = (items.filter (fun item => catOf item = categoryTitle)).map
            (fun item => removeReq item.id)) ∧
    ((¬ ∀ item ∈ items.filter (fun item => catOf item = categoryTitle), ok item.id = true) →
      (deleteAllInCategory categoryTitle ok items).items = items) ∧
    (∀ pre failItem post,
      items.filter (fun item => catOf item = categoryTitle) = pre ++ failItem :: post →
      (∀ x ∈ pre, ok x.id = true) → ok failItem.id = false →
      (deleteAllInCategory categoryTitle ok items).items = items ∧
      (deleteAllInCategory categoryTitle ok items).requests
        = pre.map (fun item => removeReq item.id) ++ [removeReq failItem.id]) := by
  refine ⟨?_, ?_, ?_⟩
  · intro hall
    have hrun := runCategoryDeletes_all_ok ok _ hall
    constructor <;> simp [deleteAllInCategory, hrun]
  · intro hnall
    have hrun : (runCategoryDeletes ok
        (items.filter fun item => catOf item = categoryTitle)).2 = false := by
      rcases Bool.eq_false_or_eq_true
          ((runCategoryDeletes ok (items.filter fun item => catOf item = categoryTitle)).2)
        with h | h
      · exact absurd ((runCategoryDeletes_success_iff ok _).mp h) hnall
      · exact h
    simp [deleteAllInCategory, hrun]
  · intro pre failItem post hsplit hpre hfail
    have hrun := runCategoryDeletes_first_fail ok pre failItem post hpre hfail
    constructor <;> simp [deleteAllInCategory, hsplit, hrun]

theorem deleteAllInCategory_spec_witness :
    (deleteAllInCategory "fruit" (fun _ => true) sampleItems).items
      = sampleItems.filter (fun item => catOf item ≠ "fruit") ∧
    (deleteAllInCategory "fruit" (fun _ => true) sampleItems).requests
      = (sampleItems.filter (fun item => catOf item = "fruit")).map
          (fun item => removeReq item.id) ∧
    (deleteAllInCategory "fruit" sampleOkFail sampleItems).items = sampleItems ∧
    (deleteAllInCategory "fruit" sampleOkFail sampleItems).requests
      = [removeReq "1", removeReq "2"] := by
  obtain ⟨h1, -, -⟩ := deleteAllInCategory_spec "fruit" (fun _ => true) sampleItems
  obtain ⟨-, -, h3⟩ := deleteAllInCategory_spec "fruit" sampleOkFail sampleItems
  obtain ⟨ha, hb⟩ := h1 (by decide)
  obtain ⟨hc, hd⟩ := h3 [⟨"1", "apples", 1, "fruit", false⟩]
      ⟨"2", "bananas", 2, "fruit", false⟩ [] (by decide) (by decide) (by decide)
  exact ⟨ha, hb, hc, by rw [hd]; rfl⟩

/-- C8: for every mutation operation — toggle-done, item delete,
quantity change, category bulk-delete and receipt-link submit — a failed
request produces exactly one localized error snackbar message, and each
invocation issues at most one HTTP request per targeted item (no retry):
the three single-item mutations issue exactly one request whatever the
outcome, the bulk delete issues at most one `/remove` per item id (and
never more requests than the category has items), and `submitLink`
issues exactly one `/fetchReceipt` POST. -/
theorem failed_mutations_surface_once (itemId : String) (doneStatus : Bool)
    (q : Int) (errMsg : String) (items : List ListItem) (categoryTitle : String)
    (ok : String → Bool) (url : String) (status : Nat) (body : String)
    (hids : (items.map ListItem.id).Nodup) :
    ((toggleItemDone itemId doneStatus false errMsg items).requests.length = 1 ∧
      (toggleItemDone itemId doneStatus true errMsg items).requests.length = 1 ∧
      (toggleItemDone itemId doneStatus false errMsg items).snacks.map Snack.type
        = [.error]) ∧
    ((deleteItem itemId false errMsg items).requests.length = 1 ∧
      (deleteItem itemId true errMsg items).requests.length = 1 ∧
      (deleteItem itemId false errMsg items).snacks.map Snack.type = [.error]) ∧
    ((updateItemQuantity itemId q false errMsg items).requests.length = 1 ∧
      (updateItemQuantity itemId q true errMsg items).requests.length = 1 ∧
      (updateItemQuantity itemId q false errMsg items).snacks.map Snack.type
        = [.error]) ∧
    ((∀ idv, ((deleteAllInCategory categoryTitle ok items).requests.filter
          (fun r => r.itemID = idv)).length ≤ 1) ∧
      (deleteAllInCategory categoryTitle ok items).requests.length
        ≤ (items.filter (fun item => catOf item = categoryTitle)).length ∧
      ((¬ ∀ item ∈ items.filter (fun item => catOf item = categoryTitle),
          ok item.id = true) →
        (deleteAllInCategory categoryTitle ok items).snacks.map Snack.type
          = [.error])) ∧
    (((submitLink url false status body).requests.filter
          (fun r => r.endpoint = "/fetchReceipt")).length = 1 ∧
      ((submitLink url true status body).requests.filter
          (fun r => r.endpoint = "/fetchReceipt")).length = 1 ∧
      (submitLink url false status body).snacks.length = 1) := by
  obtain ⟨l', hsub, heq⟩ := runCategoryDeletes_requests_sublist ok
    (items.filter fun item => catOf item = categoryTitle)
  have hreq : (deleteAllInCategory categoryTitle ok items).requests
      = List.map (fun item => removeReq item.id) l' := by
    by_cases hbr : (runCategoryDeletes ok
        (items.filter fun item => catOf item = categoryTitle)).2 = true
    · simp [deleteAllInCategory, hbr, heq]
    · rw [Bool.not_eq_true] at hbr
      simp [deleteAllInCategory, hbr, heq]
  refine ⟨⟨by simp [toggleItemDone], by simp [toggleItemDone], by simp [toggleItemDone]⟩,
    ⟨by simp [deleteItem], by simp [deleteItem], by simp [deleteItem]⟩,
    ⟨by simp [updateItemQuantity], by simp [updateItemQuantity],
      by simp [updateItemQuantity]⟩,
    ⟨?_, ?_, ?_⟩, ⟨by simp [submitLink], by simp [submitLink], by simp [submitLink]⟩⟩
  · intro idv
    rw [hreq, ← List.countP_eq_length_filter, List.countP_map]
    have hstep : List.countP ((fun r => decide (r.itemID = idv))
          ∘ fun item => removeReq item.id) l'
        ≤ List.countP (fun item => decide (item.id = idv)) items := by
      exact le_trans (hsub.countP_le _) ((List.filter_sublist _).countP_le _)
    refine le_trans hstep ?_
    have hcount : List.count idv (items.map ListItem.id) ≤ 1 :=
      List.nodup_iff_count_le_one.mp hids idv
    rw [List.count_eq_countP, List.countP_map] at hcount
    refine le_trans (le_of_eq ?_) hcount
    apply List.countP_congr
    intro x _
    simp
  · rw [hreq, List.length_map]
    exact hsub.length_le
  · intro hnall
    have hrun : (runCategoryDeletes ok
        (items.filter fun item => catOf item = categoryTitle)).2 = false := by
      rcases Bool.eq_false_or_eq_true
          ((runCategoryDeletes ok (items.filter fun item => catOf item = categoryTitle)).2)
        with h | h
      · exact absurd ((runCategoryDeletes_success_iff ok _).mp h) hnall
      · exact h
    simp [deleteAllInCategory, hrun]

theorem failed_mutations_surface_once_witness :
    (sampleItems.map ListItem.id).Nodup ∧
    (toggleItemDone "1" true false "oops" sampleItems).snacks.map Snack.type
      = [.error] ∧
    ((deleteAllInCategory "fruit" sampleOkFail sampleItems).requests.filter
        (fun r => r.itemID = "2")).length ≤ 1 ∧
    ((submitLink "http://r" false 500 "bad").requests.filter
        (fun r => r.endpoint = "/fetchReceipt")).length = 1 := by
  obtain ⟨h1, -, -, h4, h5⟩ := failed_mutations_surface_once "1" true 7 "oops"
    sampleItems "fruit" sampleOkFail "http://r" 500 "bad" (by decide)
  exact ⟨by decide, h1.2.2, h4.1 "2", h5.1⟩

/-- C9: for a non-empty offer list, `getFinalPrice` is the minimum of
`ItemPrice` and the promo's `DiscountedPrice` when a promo is present
and `ItemPrice` otherwise; `cheapestPrice` is the minimum of
`getFinalPrice` over the offers (it is attained and is a lower bound);
and an offer is tagged cheapest exactly when its final price equals that
minimum. -/
theorem supermarket_cheapest_spec (offers : List Offer) (hne : offers ≠ []) :
    (∀ o ∈ offers, getFinalPrice o.item =
      match o.item.promo with
      | some p => min o.item.ItemPrice p.DiscountedPrice
      | none => o.item.ItemPrice) ∧
    cheapestPrice offers ∈ offers.map (fun o => getFinalPrice o.item) ∧
    (∀ o ∈ offers, cheapestPrice offers ≤ getFinalPrice o.item) ∧
    (∀ o ∈ offers, (isCheapest o offers = true ↔
      getFinalPrice o.item = cheapestPrice offers)) := by
  obtain ⟨hmem, -, hall⟩ := cheapest_foldl_spec offers ⊤
  have hcheap : ∀ o ∈ offers, cheapestPrice offers ≤ getFinalPrice o.item := hall
  refine ⟨?_, ?_, hcheap, ?_⟩
  · intro o _
    cases hp : o.item.promo with
    | none => simp only [getFinalPrice, hp]; exact min_eq_left le_top
    | some p => simp [getFinalPrice, hp]
  · rcases hmem with htop | ⟨o, ho, heq⟩
    · obtain ⟨o, ho⟩ := List.exists_mem_of_ne_nil offers hne
      have hfp : getFinalPrice o.item = ⊤ :=
        top_le_iff.mp (htop ▸ hcheap o ho)
      exact List.mem_map.mpr ⟨o, ho, hfp.trans htop.symm⟩
    · exact List.mem_map.mpr ⟨o, ho, heq.symm⟩
  · intro o _
    simp [isCheapest]

/-- C1 counterexample: when the requested `doneStatus` equals the item's
pre-call `done` flag, the failure path does not restore the pre-call
list: it actively flips the flag.  Here the item is already done and
`toggleItemDone` is called with `doneStatus = true`; after the failed
POST the item ends up not done. -/
theorem toggleItemDone_claim_counterexample :
    "1" ∈ ([⟨"1", "milk", 1, "dairy", true⟩] : List ListItem).map ListItem.id ∧
    (toggleItemDone "1" true false "err" [⟨"1", "milk", 1, "dairy", true⟩]).items
      ≠ [(⟨"1", "milk", 1, "dairy", true⟩ : ListItem)] := by
  decide

/-- C1 (amended): if every item carrying the targeted id has `done`
equal to `!doneStatus` before the call — which always holds at the only
call site, where the row passes `!item.done` — then a failed POST to
`/done` or `/undone` rolls the optimistic update back and the whole list
equals the pre-call list. -/
theorem toggleItemDone_rollback_restores (itemId : String) (doneStatus : Bool)
    (errMsg : String) (items : List ListItem)
    (h : ∀ item ∈ items, item.id = itemId → item.done = !doneStatus) :
    (toggleItemDone itemId doneStatus false errMsg items).items = items := by
  simp only [toggleItemDone, Bool.false_eq_true, if_false, List.map_map]
  apply map_self_of_mem
  intro x hx
  by_cases hid : x.id = itemId
  · have hd := h x hx hid
    cases x
    simp_all [Function.comp]
  · cases x
    simp_all [Function.comp]

theorem toggleItemDone_rollback_restores_witness :
    (∀ item ∈ ([⟨"1", "milk", 2, "dairy", false⟩] : List ListItem),
        item.id = "1" → item.done = !true) ∧
    (toggleItemDone "1" true false "err" [⟨"1", "milk", 2, "dairy", false⟩]).items
      = [(⟨"1", "milk", 2, "dairy", false⟩ : ListItem)] :=
  ⟨by decide, toggleItemDone_rollback_restores "1" true "err" _ (by decide)⟩

/-- C2 counterexample: the rollback re-appends the remembered item at the
end of the list, so the post-rollback list differs from the pre-call list
as soon as the deleted item was not last. -/
theorem deleteItem_claim_counterexample :
    "1" ∈ ([⟨"1", "a", 1, "c", false⟩, ⟨"2", "b", 1, "c", false⟩] : List ListItem).map
        ListItem.id ∧
    (deleteItem "1" false "err"
        [⟨"1", "a", 1, "c", false⟩, ⟨"2", "b", 1, "c", false⟩]).items
      ≠ [⟨"1", "a", 1, "c", false⟩, ⟨"2", "b", 1, "c", false⟩] := by
  decide

/-- C2 (amended): when the targeted id occurs at most once, the rollback
of a failed `/remove` restores the same collection of items — the
post-rollback list is a permutation of the pre-call list, with the
deleted item re-appended at the end rather than at its original
position. -/
theorem deleteItem_rollback_perm (itemId : String) (errMsg : String)
    (items : List ListItem)
    (h : (items.filter fun i => i.id = itemId).length ≤ 1) :
    List.Perm (deleteItem itemId false errMsg items).items items := by
  have hperm := List.filter_append_perm (fun i => decide (i.id = itemId)) items
  have hcong : items.filter (fun x => !decide (x.id = itemId))
      = items.filter fun item => item.id ≠ itemId := by
    apply List.filter_congr
    intro x _
    simp
  cases hfind : items.find? (fun i => i.id = itemId) with
  | none =>
    simp only [deleteItem, Bool.false_eq_true, if_false, hfind]
    have hall := List.find?_eq_none.mp hfind
    have hself : items.filter (fun item => item.id ≠ itemId) = items :=
      List.filter_eq_self.mpr fun a ha => by simpa using hall a ha
    rw [hself]
  | some it =>
    simp only [deleteItem, Bool.false_eq_true, if_false, hfind]
    have hit : it.id = itemId := by simpa using List.find?_some hfind
    have hmem : it ∈ items := List.mem_of_find?_eq_some hfind
    have hmemf : it ∈ items.filter (fun i => i.id = itemId) :=
      List.mem_filter.mpr ⟨hmem, by simpa using hit⟩
    have hflt : items.filter (fun i => i.id = itemId) = [it] := by
      cases hq : items.filter (fun i => i.id = itemId) with
      | nil => rw [hq] at hmemf; cases hmemf
      | cons a l =>
        rw [hq] at h hmemf
        have hl : l = [] := by
          cases l with
          | nil => rfl
          | cons b bs => simp at h
        subst hl
        rcases List.mem_singleton.mp hmemf with rfl
        rfl
    have h1 : items.filter (fun item => item.id ≠ itemId) ++ [it]
        = items.filter (fun item => item.id ≠ itemId)
            ++ items.filter (fun i => i.id = itemId) := by rw [hflt]
    have h2 : List.Perm
        (items.filter (fun i => i.id = itemId)
          ++ items.filter (fun item => item.id ≠ itemId)) items := by
      rw [← hcong]; exact hperm
    have h3 : List.Perm
        (items.filter (fun item => item.id ≠ itemId)
          ++ items.filter (fun i => i.id = itemId))
        (items.filter (fun i => i.id = itemId)
          ++ items.filter (fun item => item.id ≠ itemId)) :=
      List.perm_append_comm
    rw [h1]
    exact h3.trans h2

theorem deleteItem_rollback_perm_witness :
    ((([⟨"1", "a", 1, "c", false⟩, ⟨"2", "b", 1, "c", false⟩] : List ListItem).filter
        fun i => i.id = "1").length ≤ 1) ∧
    List.Perm
      (deleteItem "1" false "err"
        [⟨"1", "a", 1, "c", false⟩, ⟨"2", "b", 1, "c", false⟩]).items
      [⟨"1", "a", 1, "c", false⟩, ⟨"2", "b", 1, "c", false⟩] :=
  ⟨by decide, deleteItem_rollback_perm "1" "err" _ (by decide)⟩

/-- C4: `updateItemQuantity` changes only the quantity field of the
targeted item: on success the targeted item's quantity becomes the
requested one and everything else — every other item and the targeted
item's id, name, category and done fields — is unchanged; on failure the
whole list is restored to its pre-call value. -/
theorem updateItemQuantity_frame (itemId : String) (q : Int) (errMsg : String)
    (pre post : List ListItem) (tgt : ListItem)
    (hid : tgt.id = itemId)
    (hpre : ∀ x ∈ pre, x.id ≠ itemId)
    (hpost : ∀ x ∈ post, x.id ≠ itemId) :
    (updateItemQuantity itemId q true errMsg (pre ++ tgt :: post)).items
      = pre ++ { tgt with quantity := q } :: post ∧
    (updateItemQuantity itemId q false errMsg (pre ++ tgt :: post)).items
      = pre ++ tgt :: post := by
  have hfind : (pre ++ tgt :: post).find? (fun i => decide (i.id = itemId)) = some tgt := by
    rw [List.find?_append]
    have h1 : pre.find? (fun i => decide (i.id = itemId)) = none :=
      List.find?_eq_none.mpr fun x hx => by simpa using hpre x hx
    rw [h1, Option.none_or, List.find?_cons_of_pos]
    simpa using hid
  have hopt : (pre ++ tgt :: post).map
      (fun item => if item.id = itemId then { item with quantity := q } else item)
      = pre ++ { tgt with quantity := q } :: post := by
    have hmpre : pre.map
        (fun item => if item.id = itemId then { item with quantity := q } else item)
        = pre :=
      map_self_of_mem fun x hx => by simp [hpre x hx]
    have hmpost : post.map
        (fun item => if item.id = itemId then { item with quantity := q } else item)
        = post :=
      map_self_of_mem fun x hx => by simp [hpost x hx]
    rw [List.map_append, List.map_cons, hmpre, hmpost, if_pos hid]
  constructor
  · exact hopt
  · simp only [updateItemQuantity, Bool.false_eq_true, if_false, hfind, List.map_map,
      Option.map_some]
    apply map_self_of_mem
    intro x hx
    simp only [Function.comp]
    by_cases hxid : x.id = itemId
    · rcases List.mem_append.mp hx with hx' | hx'
      · exact absurd hxid (hpre x hx')
      · rcases List.mem_cons.mp hx' with rfl | hx''
        · cases x
          simp_all
        · exact absurd hxid (hpost x hx'')
    · simp [hxid]

theorem updateItemQuantity_frame_witness :
    ((⟨"1", "a", 2, "c", false⟩ : ListItem).id = "1" ∧
      (∀ x ∈ ([] : List ListItem), x.id ≠ "1") ∧
      (∀ x ∈ ([⟨"2", "b", 1, "c", false⟩] : List ListItem), x.id ≠ "1")) ∧
    ((updateItemQuantity "1" 7 true "err"
        ([] ++ ⟨"1", "a", 2, "c", false⟩ :: [⟨"2", "b", 1, "c", false⟩])).items
      = [] ++ ({ (⟨"1", "a", 2, "c", false⟩ : ListItem) with quantity := 7 })
          :: [⟨"2", "b", 1, "c", false⟩] ∧
    (updateItemQuantity "1" 7 false "err"
        ([] ++ ⟨"1", "a", 2, "c", false⟩ :: [⟨"2", "b", 1, "c", false⟩])).items
      = [] ++ (⟨"1", "a", 2, "c", false⟩ : ListItem) :: [⟨"2", "b", 1, "c", false⟩]) :=
  ⟨⟨rfl, by decide, by decide⟩,
    updateItemQuantity_frame "1" 7 "err" [] [⟨"2", "b", 1, "c", false⟩]
      ⟨"1", "a", 2, "c", false⟩ rfl (by decide) (by decide)⟩

theorem supermarket_cheapest_spec_witness :
    c9Offers ≠ [] ∧
    ((∀ o ∈ c9Offers, getFinalPrice o.item =
        match o.item.promo with
        | some p => min o.item.ItemPrice p.DiscountedPrice
        | none => o.item.ItemPrice) ∧
      cheapestPrice c9Offers ∈ c9Offers.map (fun o => getFinalPrice o.item) ∧
      (∀ o ∈ c9Offers, cheapestPrice c9Offers ≤ getFinalPrice o.item) ∧
      (∀ o ∈ c9Offers, (isCheapest o c9Offers = true ↔
        getFinalPrice o.item = cheapestPrice c9Offers))) :=
  ⟨List.cons_ne_nil _ _,
    supermarket_cheapest_spec c9Offers (List.cons_ne_nil _ _)⟩

end ZenList
